import Mathlib

/-!
Verification development for the maintainer-tooling scripts of this repository
(scripts/utils/codeowners.py, scripts/create_patches/create_patches.py,
scripts/slipstream/slipstream.py, scripts/track_upstream_commits/track_upstream_commits.py).

The Python sources are shallowly embedded: pure functions become Lean functions,
the filesystem walks become functions over an explicit directory-tree type, and
fallible operations return Option or Except.  Python library collaborators
(fnmatch, posixpath.normpath, str.split, re with literal patterns, difflib) are
modelled by executable Lean functions that implement their documented semantics
on the fragment exercised by the scripts; each such model carries a comment
stating the fragment.  All definitions are computable so that theorems about
concrete inputs can be settled by kernel evaluation.
-/

namespace Spec2Proof

/-! ## Python string primitives -/

/-- Characters removed by Python str.strip() with no argument (ASCII whitespace). -/
def isPySpace (c : Char) : Bool :=
  c = ' ' || c = '\t' || c = '\n' || c = '\r' || c = '\x0b' || c = '\x0c'

/-- Python line.strip(): drop leading and trailing whitespace. -/
def pyStrip (s : String) : String :=
  String.mk (((s.data.dropWhile isPySpace).reverse.dropWhile isPySpace).reverse)

/-- Helper for pySplit: accumulate the current word (reversed) while scanning. -/
def splitWsAux : List Char → List Char → List String
  | [], acc => if acc.isEmpty then [] else [String.mk acc.reverse]
  | c :: cs, acc =>
    if isPySpace c then
      if acc.isEmpty then splitWsAux cs []
      else String.mk acc.reverse :: splitWsAux cs []
    else splitWsAux cs (c :: acc)

/-- Python line.split() with no argument: split on whitespace runs, no empty fields. -/
def pySplit (s : String) : List String := splitWsAux s.data []

/-- Python s.rstrip("/"): drop every trailing slash. -/
def pyRstripSlash (s : String) : String :=
  String.mk ((s.data.reverse.dropWhile (fun c => c = '/')).reverse)

/-- Python s.lstrip("/"): drop every leading slash. -/
def pyLstripSlash (s : String) : String :=
  String.mk (s.data.dropWhile (fun c => c = '/'))

/-- Python a.startswith(b). -/
def py_startswith (a b : String) : Bool := b.data.isPrefixOf a.data

/-! ## Model of fnmatch.fnmatch

fnmatch.translate turns a glob into a regex matched against the whole name:
each * becomes .* (matching any characters, slashes included — there is no
special ** treatment), ? becomes . (any single character), other characters
are literals.  On POSIX, normcase is the identity.  The model below implements
exactly these semantics by structural recursion (first on the name, then on the
pattern); it covers the fragment without [...] character classes, which no
pattern in this repository uses.  CPython 3.11+ emits atomic groups as an
optimization, which is documented and observed to preserve these semantics. -/

/-- Match one step: the name starts with character c and matching continues with
rest on the remaining name.  The star case either lets * consume c (rest keeps
the whole pattern) or drops the star. -/
def globStep (c : Char) (rest : List Char → Bool) : List Char → Bool
  | [] => false
  | p :: ps =>
    if p = '*' then rest (p :: ps) || globStep c rest ps
    else ((p = '?') || (p = c)) && rest ps

/-- Full-match of a pattern (second argument) against a name (first argument). -/
def globMatchName : List Char → List Char → Bool
  | [] => fun ps => ps.all (fun p => p = '*')
  | c :: s => globStep c (globMatchName s)

/-- Model of fnmatch.fnmatch(name, pat) on POSIX. -/
def fnmatch (name pat : String) : Bool := globMatchName name.data pat.data

/-! ## Model of posixpath.normpath -/

/-- Helper: split a char list at '/' (Python path.split('/')). -/
def splitSlashAux : List Char → List Char → List String
  | [], acc => [String.mk acc.reverse]
  | c :: cs, acc =>
    if c = '/' then String.mk acc.reverse :: splitSlashAux cs []
    else splitSlashAux cs (c :: acc)

/-- Python path.split('/'). -/
def splitSlash (s : String) : List String := splitSlashAux s.data []

/-- Model of posixpath.normpath, following the CPython implementation:
collapse empty and "." components, resolve ".." against preceding components,
preserve one or exactly two leading slashes. -/
def normpath (path : String) : String :=
  if path = "" then "."
  else
    let initialSlashes : Nat :=
      if py_startswith path "/" then
        (if py_startswith path "//" && !(py_startswith path "///") then 2 else 1)
      else 0
    let comps := splitSlash path
    let newComps := comps.foldl (fun acc comp =>
      if comp = "" || comp = "." then acc
      else if comp ≠ ".." || (initialSlashes = 0 && acc.isEmpty) ||
              (!acc.isEmpty && acc.getLast? = some "..") then acc ++ [comp]
      else if !acc.isEmpty then acc.dropLast
      else acc) []
    let joined := String.mk (List.replicate initialSlashes '/') ++
      String.intercalate "/" newComps
    if joined = "" then "." else joined

/-! ## CodeOwners (scripts/utils/codeowners.py) -/

/-- Helper class PatternWithOwners of CodeOwners.__init__. -/
structure PatternWithOwners where
  pattern : String
  owners : List String
deriving DecidableEq

/-- The CodeOwners state after construction.  The optional mapping functions of
the Python object are passed explicitly to the operations instead of being
stored, which keeps the state decidable; the lookup is embedded for arbitrary
mappings, while the folder-attribution theorems are stated for the
mapping-free configuration (codeowners.py and create_patches.py construct
CodeOwners with both mappings None; compare.py passes a path mapping). -/
structure CodeOwners where
  default_owners : Option (List String)
  patterns : List PatternWithOwners
deriving DecidableEq

/-- Apply an optional mapping function (None means identity). -/
def mapPath (f : Option (String → String)) (p : String) : String :=
  match f with
  | some g => g p
  | none => p

/-- Processing of one line of the rules file in CodeOwners.__init__:
strip, skip blanks and comments, whitespace-split into pattern and owners;
a literal "*" pattern overwrites default_owners, any other pattern is mapped
by pattern_mapping_func and inserted at the FRONT of the rule list.
The empty split case is unreachable for a non-empty stripped line. -/
def processLine (pattern_mapping_func : Option (String → String))
    (st : CodeOwners) (rawLine : String) : CodeOwners :=
  let line := pyStrip rawLine
  if line = "" || py_startswith line "#" then st
  else
    match pySplit line with
    | [] => st
    | glob_pattern :: owners =>
      if glob_pattern = "*" then { st with default_owners := some owners }
      else { st with patterns :=
        ⟨mapPath pattern_mapping_func glob_pattern, owners⟩ :: st.patterns }

/-- CodeOwners.__init__ over the list of lines of the rules file. -/
def CodeOwners.build (pattern_mapping_func : Option (String → String))
    (lines : List String) : CodeOwners :=
  lines.foldl (processLine pattern_mapping_func) ⟨none, []⟩

/-- CodeOwners.match_pattern: a pattern starting with '/' is matched relative
to the root (leading slashes stripped), any other pattern is prefixed with
"**/"; trailing slashes are stripped from both sides and the path is
normalized before fnmatch. -/
def match_pattern (path pattern : String) : Bool :=
  let pattern1 :=
    if py_startswith pattern "/" then pyLstripSlash pattern
    else "**/" ++ pattern
  let path1 := pyRstripSlash path
  let pattern2 := pyRstripSlash pattern1
  fnmatch (normpath path1) pattern2

/-- Python truthiness of an optional owner list: None and [] are falsy. -/
def truthyOwners : Option (List String) → Option (List String)
  | some (o :: os) => some (o :: os)
  | _ => none

/-- CodeOwners.match_owners_for_path: map the path, return the owners of the
first stored rule whose pattern matches, else the default owners when
match_default is set and they are truthy, else none. -/
def match_owners_for_path (co : CodeOwners) (path_mapping_func : Option (String → String))
    (path : String) (match_default : Bool) : Option (List String) :=
  let path := mapPath path_mapping_func path
  match co.patterns.find? (fun pw => match_pattern path pw.pattern) with
  | some pw => some pw.owners
  | none =>
    if match_default && (truthyOwners co.default_owners).isSome then co.default_owners
    else none

/-- The hard-coded ignored-directory patterns of CodeOwners.__init__. -/
def ignored_dirs_patterns : List String :=
  ["/.cargo/", "/.config/", "/.git/", "/.pnpm_store/", "/.vscode/", "/chocolatey/", "/target/"]

/-- CodeOwners.is_ignored_dir (the helper inside match_paths_for_owners). -/
def is_ignored_dir (path : String) : Bool :=
  ignored_dirs_patterns.any (fun pat => match_pattern path pat)

/-- Specification-side reading of rule declaration, for the last-match-wins
refinement statement: the rules of the file in declaration order (blank,
comment and "*" lines excluded, pattern mapping applied), to be compared with
the front-inserted list the code builds. -/
def declaredRules (pattern_mapping_func : Option (String → String)) :
    List String → List PatternWithOwners
  | [] => []
  | rawLine :: rest =>
    let line := pyStrip rawLine
    if line = "" || py_startswith line "#" then declaredRules pattern_mapping_func rest
    else
      match pySplit line with
      | [] => declaredRules pattern_mapping_func rest
      | glob_pattern :: owners =>
        if glob_pattern = "*" then declaredRules pattern_mapping_func rest
        else ⟨mapPath pattern_mapping_func glob_pattern, owners⟩ ::
          declaredRules pattern_mapping_func rest

/-- Specification-side definition: the most recently declared rule whose
pattern matches the (already mapped) path, over rules in declaration order. -/
def lastDeclaredMatch (path : String) : List PatternWithOwners → Option PatternWithOwners
  | [] => none
  | r :: rest =>
    match lastDeclaredMatch path rest with
    | some r2 => some r2
    | none => if match_pattern path r.pattern then some r else none

/-! ## The directory walk of CodeOwners.match_paths_for_owners

The filesystem subtree under the root folder is modelled as a tree of folder
names; os.walk(root) is the depth-first traversal of it.  The recursion is
driven by a fuel counter that decreases once per directory level; the entry
point passes the sizeOf of the forest, a strict upper bound on its depth, so
the fuel never runs out on the tree actually walked. -/

/-- A folder: its bare name and its subfolders, in os.listdir order. -/
inductive FTree where
  | node (name : String) (children : List FTree)

/-- Bare name of a folder. -/
def FTree.name : FTree → String
  | .node n _ => n

/-- Subfolders of a folder. -/
def FTree.children : FTree → List FTree
  | .node _ cs => cs

mutual

/-- Number of folders in a tree. -/
def FTree.size : FTree → Nat
  | .node _ cs => 1 + sizeL cs

/-- Number of folders in a forest; one more than this bounds the walk depth. -/
def sizeL : List FTree → Nat
  | [] => 0
  | t :: ts => t.size + sizeL ts

end

/-- get_relative_path of a child: os.path.relpath(os.path.join(root, sub), root_folder)
when root is at relative path relRoot (the root folder itself is at "."). -/
def joinRel (relRoot name : String) : String :=
  if relRoot = "." then name else relRoot ++ "/" ++ name

/-- Outcome of examining one subfolder in pass 1 of match_paths_for_owners:
ignored directory, truthy direct owner match, or no match (walk continues). -/
inductive CClass where
  | ignored
  | matched (owners : List String)
  | keep
deriving DecidableEq

/-- Classification of a subfolder by its (mapped) relative path, mirroring the
pass-1 branch structure: the ignored-directory check, then the truthiness of
match_owners_for_path with match_default=False. -/
def classifyChild (co : CodeOwners) (pf : Option (String → String)) (relm : String) : CClass :=
  if is_ignored_dir relm then .ignored
  else
    match truthyOwners (match_owners_for_path co pf relm false) with
    | some os => .matched os
    | none => .keep

/-- Pass-1 accumulator: matched_relative_paths_all (dict keys, insertion
order), matched_relative_paths_filtered (dict as association list) and
unmatched_directories (as (relative root, subfolder name) pairs). -/
structure Pass1State where
  all : List String
  filtered : List (String × List String)
  unmatched : List (String × String)
deriving DecidableEq

/-- Python dict-key insertion guarded by a membership test. -/
def insertAll (all : List String) (p : String) : List String :=
  if p ∈ all then all else all ++ [p]

/-- Python dict.setdefault(k, []).extend(os) on an association list. -/
def extendKey : List (String × List String) → String → List String → List (String × List String)
  | [], k, os => [(k, os)]
  | (k2, v) :: rest, k, os =>
    if k2 = k then (k2, v ++ os) :: rest else (k2, v) :: extendKey rest k os

/-- Pass-1 treatment of one subfolder of the directory at relative path
relRoot: ignored folders are skipped; a truthy direct match is recorded in
the all-set (and in the filtered result when its owners intersect the
requested owners) and not descended into; an unmatched folder is deferred. -/
def pass1Child (co : CodeOwners) (pf : Option (String → String)) (owners : List String)
    (relRoot : String) (st : Pass1State) (name : String) : Pass1State :=
  let relSub := joinRel relRoot name
  let relm := mapPath pf relSub
  match classifyChild co pf relm with
  | .ignored => st
  | .matched mos =>
    if mos.any (fun o => owners.contains o) then
      { st with all := insertAll st.all relm,
                filtered := extendKey st.filtered relm mos }
    else
      { st with all := insertAll st.all relm }
  | .keep => { st with unmatched := st.unmatched ++ [(relRoot, name)] }

/-- Pass 1 of match_paths_for_owners: os.walk from the directory at relative
path relRoot with the given subfolders.  Each visited directory is first
re-checked against the ignored patterns (the root-level check of the walk
loop), then all its subfolders are classified in listdir order, then the walk
descends — in order — exactly into those subfolders that stayed in dirs,
i.e. the unmatched ones. -/
def walkNodeF (co : CodeOwners) (pf : Option (String → String)) (owners : List String) :
    Nat → String → List FTree → Pass1State → Pass1State
  | 0, _, _, st => st
  | fuel + 1, relRoot, children, st =>
    if is_ignored_dir (mapPath pf relRoot) then st
    else
      let st1 := children.foldl (fun s c => pass1Child co pf owners relRoot s c.name) st
      children.foldl (fun s c =>
        if classifyChild co pf (mapPath pf (joinRel relRoot c.name)) = CClass.keep then
          walkNodeF co pf owners fuel (joinRel relRoot c.name) c.children s
        else s) st1

/-- Pass-2 accumulator: the all-set and the filtered result, shared with
pass 1. -/
structure Pass2State where
  all : List String
  filtered : List (String × List String)
deriving DecidableEq

/-- Pass 2 of match_paths_for_owners for one deferred (root, subfolder) pair:
skip when the root is ignored, skip when some member of the all-set is a
string-prefix extension or a string-prefix of the folder path, otherwise
resolve owners with match_default=True and record the folder when they are
truthy and intersect the requested owners. -/
def pass2Step (co : CodeOwners) (pf : Option (String → String)) (owners : List String)
    (st : Pass2State) (entry : String × String) : Pass2State :=
  if is_ignored_dir (mapPath pf entry.1) then st
  else
    let relSub := mapPath pf (joinRel entry.1 entry.2)
    let hasSub := st.all.any (fun m => py_startswith m relSub && (m != relSub))
    let hasPar := st.all.any (fun m => py_startswith relSub m && (m != relSub))
    if hasSub || hasPar then st
    else
      match truthyOwners (match_owners_for_path co pf relSub true) with
      | some dos =>
        if dos.any (fun o => owners.contains o) then
          { all := insertAll st.all relSub, filtered := extendKey st.filtered relSub dos }
        else st
      | none => st

/-- CodeOwners.match_paths_for_owners over a modelled directory tree: pass 1
walks the tree from the root (relative path "."), pass 2 folds over the
deferred directories in their recorded order; the filtered mapping is the
result. -/
def match_paths_for_owners (co : CodeOwners) (pf : Option (String → String))
    (rootChildren : List FTree) (owners : List String) : List (String × List String) :=
  let st1 := walkNodeF co pf owners (sizeL rootChildren + 1) "." rootChildren ⟨[], [], []⟩
  let st2 := st1.unmatched.foldl (pass2Step co pf owners) ⟨st1.all, st1.filtered⟩
  st2.filtered

/-! ## Proof-side path predicates for the attribution theorems -/

/-- q is a strict segment-ancestor of p: p extends q at a '/' boundary.
For trees whose folder names contain no '/', the paths q with this property
are exactly the relative paths of the strict ancestors of the folder at p. -/
def SegAncestor (q p : String) : Prop := ∃ t : String, p = q ++ "/" ++ t

/-- Every strict slash-split prefix of p classifies as keep (was visited and
deferred, in particular is neither ignored nor directly matched). -/
def AncOK (co : CodeOwners) (p : String) : Prop :=
  ∀ q t : String, p = q ++ "/" ++ t → classifyChild co none q = CClass.keep

/-- A path recorded as a direct match in pass 1: truthy direct classification
and keep-classified strict ancestors. -/
def MatOK (co : CodeOwners) (p : String) : Prop :=
  (∃ os, classifyChild co none p = CClass.matched os) ∧ AncOK co p

/-- A path deferred to pass 2: keep classification and keep-classified strict
ancestors. -/
def KeepOK (co : CodeOwners) (p : String) : Prop :=
  classifyChild co none p = CClass.keep ∧ AncOK co p

/-- Invariant of the pass-1 state (with no path mapping): every all-set member
is a direct match with keep ancestors, filtered keys lie in the all-set, and
every deferred directory keep-classifies with keep ancestors. -/
structure GoodSt (co : CodeOwners) (st : Pass1State) : Prop where
  allOk : ∀ p ∈ st.all, MatOK co p
  filtOk : ∀ k ∈ st.filtered.map Prod.fst, k ∈ st.all
  unmOk : ∀ e ∈ st.unmatched, KeepOK co (joinRel e.1 e.2)

/-- Invariant of the pass-2 state: filtered keys lie in the all-set, no
filtered key is a strict segment-ancestor of another, and all filtered keys
have keep-classified strict ancestors. -/
structure GoodSt2 (co : CodeOwners) (st : Pass2State) : Prop where
  filtSub : ∀ k ∈ st.filtered.map Prod.fst, k ∈ st.all
  noSeg : ∀ k1 ∈ st.filtered.map Prod.fst, ∀ k2 ∈ st.filtered.map Prod.fst,
    ¬ SegAncestor k1 k2
  ancOk : ∀ k ∈ st.filtered.map Prod.fst, AncOK co k

/-- Well-formedness of a modelled directory forest: folder names contain no
'/' (guaranteed by any real filesystem). -/
inductive ForestOk : List FTree → Prop where
  | mk (ts : List FTree) (hn : ∀ t ∈ ts, '/' ∉ t.name.data)
      (hc : ∀ t ∈ ts, ForestOk t.children) : ForestOk ts

/-! ## Rename engine (slipstream.py apply_path_renames / apply_code_renames)

Python regexes are modelled on the literal fragment: a pattern without regex
metacharacters, for which re.search is substring search and re.sub replaces
the leftmost non-overlapping occurrences left to right.  This is the fragment
needed by the claims about the rename pipeline; the model is defined for
non-empty patterns (an empty regex is degenerate and unused). -/

/-- Rename pattern entry of the config: regex, replacement and the per-pattern
ignore file list. -/
structure RenamePattern where
  regex : String
  replacement : String
  ignore_files : List String
deriving DecidableEq

/-- Helper for occursIn: does pat occur as a substring starting at any suffix. -/
def occursInAux (pat : List Char) : List Char → Bool
  | [] => pat.isPrefixOf []
  | c :: cs => pat.isPrefixOf (c :: cs) || occursInAux pat cs

/-- Model of re.search with a literal pattern: substring occurrence. -/
def occursIn (pat s : String) : Bool := occursInAux pat.data s.data

/-- Fuelled leftmost non-overlapping literal replacement; the fuel is the
length of the subject, which bounds the recursion. -/
def subFuel (pat repl : List Char) : Nat → List Char → List Char
  | _, [] => []
  | 0, s => s
  | fuel + 1, c :: s =>
    if !pat.isEmpty && pat.isPrefixOf (c :: s) then
      repl ++ subFuel pat repl fuel (s.drop (pat.length - 1))
    else
      c :: subFuel pat repl fuel s

/-- Model of re.sub with a literal pattern. -/
def re_sub (pat repl s : String) : String :=
  String.mk (subFuel pat.data repl.data s.data.length s.data)

/-- The rename fold of apply_path_renames applied to one path: each pattern in
order, skipped when one of its own ignore regexes matches the current path,
otherwise substituted. -/
def applyRenames (patterns : List RenamePattern) (path : String) : String :=
  patterns.foldl (fun new_path p =>
    if p.ignore_files.any (fun ig => occursIn ig new_path) then new_path
    else re_sub p.regex p.replacement new_path) path

/-! ## create_patch (create_patches.py) and the unified-diff collaborator -/

/-- What a file slot holds for create_patch: missing, readable text lines, or
content that raises UnicodeDecodeError when read as text. -/
inductive FileContent where
  | absent
  | text (lines : List String)
  | binary
deriving DecidableEq

/-- readlines of a present side; a missing side contributes no lines. -/
def contentLines : FileContent → List String
  | .text ls => ls
  | _ => []

/-- Diff-header label of a side: the "/dev/null" sentinel when the file is
missing, else the shared relative path. -/
def contentLabel (fc : FileContent) (relative_item : String) : String :=
  match fc with
  | .absent => "/dev/null"
  | _ => relative_item

/-- Length of the common prefix of two line lists. -/
def commonPrefixLen : List String → List String → Nat
  | a :: as, b :: bs => if a = b then commonPrefixLen as bs + 1 else 0
  | _, _ => 0

/-- difflib range formatting for a hunk side covering [start, stop). -/
def formatRange (start stop : Nat) : String :=
  let len := stop - start
  if len = 1 then toString (start + 1)
  else if len = 0 then toString start ++ ",0"
  else toString (start + 1) ++ "," ++ toString len

/-- Model of difflib.unified_diff joined to one string (lineterm "\n",
out-of-scope collaborator per the spec): empty exactly when the inputs are
equal; otherwise the two header lines, one hunk obtained by trimming the
common prefix and suffix, deletions prefixed '-' and insertions prefixed '+'.
The model omits difflib's context lines and multi-hunk splitting, and agrees
with difflib on emptiness, header labels and the minus and plus lines of
fully-differing and one-sided files. -/
def unified_diff (a b : List String) (fromfile tofile : String) : String :=
  if a = b then ""
  else
    let p := commonPrefixLen a b
    let a1 := a.drop p
    let b1 := b.drop p
    let s := commonPrefixLen a1.reverse b1.reverse
    let dels := a1.take (a1.length - s)
    let ins := b1.take (b1.length - s)
    "--- " ++ fromfile ++ "\n" ++ "+++ " ++ tofile ++ "\n" ++
    "@@ -" ++ formatRange p (p + dels.length) ++ " +" ++ formatRange p (p + ins.length) ++
    " @@\n" ++
    String.join (dels.map (fun l => "-" ++ l)) ++
    String.join (ins.map (fun l => "+" ++ l))

/-- create_patches.py create_patch on modelled file contents: an undecodable
side abandons the patch (no write, no exception), a missing side is labelled
"/dev/null" and contributes no lines, and the patch content is returned
exactly when the unified diff is non-empty (some = the file written). -/
def create_patch (source_file target_file : FileContent) (relative_item : String) :
    Option String :=
  match source_file with
  | .binary => none
  | _ =>
    match target_file with
    | .binary => none
    | _ =>
      let file_diff := unified_diff (contentLines source_file) (contentLines target_file)
        (contentLabel source_file relative_item) (contentLabel target_file relative_item)
      if file_diff = "" then none
      else some file_diff

/-! ## Semantic-version gating (slipstream.py) -/

/-- A parsed numeric triplet, the payload of semver.Version for versions
without prerelease or build parts (the triplet regex only ever hands
digits-and-dots groups to semver.Version.parse, though such a group can
still be rejected by the parser when a component has a leading zero). -/
structure SemVer where
  major : Nat
  minor : Nat
  patch : Nat
deriving DecidableEq

/-- Strict semver comparison on numeric triplets: lexicographic
major, minor, patch. -/
def semVerLt (a b : SemVer) : Bool :=
  if a.major ≠ b.major then decide (a.major < b.major)
  else if a.minor ≠ b.minor then decide (a.minor < b.minor)
  else decide (a.patch < b.patch)

/-- Digits to a natural number. -/
def digitsToNat (ds : List Char) : Nat :=
  ds.foldl (fun n c => n * 10 + (c.toNat - '0'.toNat)) 0

/-- Match the triplet regex digits+ '.' digits+ '.' digits+ at the head of the
list (greediness agrees with backtracking here because a digit run can never
end before a literal dot), returning the three digit runs of the match
group. -/
def tripletAt (l : List Char) : Option (List Char × List Char × List Char) :=
  let d1 := l.takeWhile Char.isDigit
  let r1 := l.dropWhile Char.isDigit
  if d1.isEmpty then none
  else
    match r1 with
    | '.' :: r2 =>
      let d2 := r2.takeWhile Char.isDigit
      let r3 := r2.dropWhile Char.isDigit
      if d2.isEmpty then none
      else
        match r3 with
        | '.' :: r4 =>
          let d3 := r4.takeWhile Char.isDigit
          if d3.isEmpty then none
          else some (d1, d2, d3)
        | _ => none
    | _ => none

/-- Leftmost occurrence search of the triplet regex: the match group of
re.search, independent of whether semver accepts it. -/
def searchTriplet : List Char → Option (List Char × List Char × List Char)
  | [] => none
  | c :: cs =>
    match tripletAt (c :: cs) with
    | some v => some v
    | none => searchTriplet cs

/-- Does a digit run satisfy the semver numeric-identifier grammar
0 or [1-9] digits*: a lone zero is allowed, a leading zero is not. -/
def noLeadingZero : List Char → Bool
  | [] => false
  | ['0'] => true
  | c :: _ => c != '0'

/-- Model of semver.Version.parse applied to a digits-and-dots match group:
every component must be free of leading zeros, else the parser raises
ValueError (modelled as none). -/
def semverParseTriplet (d1 d2 d3 : List Char) : Option SemVer :=
  if noLeadingZero d1 && noLeadingZero d2 && noLeadingZero d3 then
    some ⟨digitsToNat d1, digitsToNat d2, digitsToNat d3⟩
  else none

/-- slipstream.py extract_sem_version: regex-search the first numeric triplet
in the version string and hand the match group to semver.Version.parse; none
models the raised ValueError, from either a missing match or a group the
semver grammar rejects (leading-zero component). -/
def extract_sem_version (version_str : String) : Option SemVer :=
  match searchTriplet version_str.data with
  | none => none
  | some (d1, d2, d3) => semverParseTriplet d1 d2 d3

/-- Python truthiness of an optional string: None and "" are falsy. -/
def truthyStr : Option String → Option String
  | some s => if s = "" then none else some s
  | none => none

/-- The version-bound fields of an overlay or patch config entry. -/
structure ConfigEntry where
  min_sem_version : Option String
  max_sem_version : Option String
deriving DecidableEq

/-- The max_sem_version half of skip_entry_by_version. -/
def skipMax (sem_version : SemVer) (entry : ConfigEntry) : Except String Bool :=
  match truthyStr entry.max_sem_version with
  | some s =>
    match extract_sem_version s with
    | none => .error s
    | some maxv => if semVerLt maxv sem_version then .ok true else .ok false
  | none => .ok false

/-- slipstream.py skip_entry_by_version: a falsy entry is not skipped; a
truthy min bound is parsed (error models the propagated ValueError) and the
entry is skipped when the resolved version is below it; then likewise a
truthy max bound, skipped when the resolved version is above it. -/
def skip_entry_by_version (sem_version : SemVer) (config_entry : Option ConfigEntry) :
    Except String Bool :=
  match config_entry with
  | none => .ok false
  | some entry =>
    match truthyStr entry.min_sem_version with
    | some s =>
      match extract_sem_version s with
      | none => .error s
      | some minv =>
        if semVerLt sem_version minv then .ok true
        else skipMax sem_version entry
    | none => skipMax sem_version entry

/-- Relation between a stored bound string and its parsed value: a falsy bound
parses to none, a truthy one must extract successfully. -/
def BoundParsed (bound : Option String) (vb : Option SemVer) : Prop :=
  (truthyStr bound = none ∧ vb = none) ∨
  (∃ s m, truthyStr bound = some s ∧ extract_sem_version s = some m ∧ vb = some m)

/-- Is the resolved version strictly below an optional lower bound. -/
def belowMin (v : SemVer) : Option SemVer → Bool
  | some m => semVerLt v m
  | none => false

/-- Is the resolved version strictly above an optional upper bound. -/
def aboveMax (v : SemVer) : Option SemVer → Bool
  | some m => semVerLt m v
  | none => false

/-! ## apply_code_renames per-file behaviour (slipstream.py) -/

/-- Text or undecodable content of an existing file. -/
inductive FileData where
  | text (content : String)
  | binary
deriving DecidableEq

/-- A file reached by the content-rename walk: its path (as joined by the
walk), its bare name, and its content. -/
structure SrcFile where
  path : String
  name : String
  contents : FileData
deriving DecidableEq

/-- Extension component of os.path.splitext on a bare file name: the suffix
from the last dot, empty when there is no dot or only leading dots precede it. -/
def splitext_ext (name : String) : String :=
  let cs := name.data
  let revTail := cs.reverse.takeWhile (fun c => c ≠ '.')
  if revTail.length = cs.length then ""
  else
    let stem := cs.take (cs.length - revTail.length - 1)
    if stem.all (fun c => c = '.') then ""
    else String.mk ('.' :: revTail.reverse)

/-- Content transform of apply_code_renames for one file: each pattern in
order, skipped when one of its own ignore regexes matches the BARE file name
(the content-rename asymmetry), otherwise substituted into the content. -/
def applyCodeRenamesContent (patterns : List RenamePattern) (file_name content : String) :
    String :=
  patterns.foldl (fun c p =>
    if p.ignore_files.any (fun ig => occursIn ig file_name) then c
    else re_sub p.regex p.replacement c) content

/-- Per-file step of apply_code_renames: the file-type filter (on the
extension), then the file filter (on the full path), then the read — an
undecodable file raises UnicodeError (the .error case), a readable one has
the patterns applied and its new content written (ok some). -/
def apply_code_renames_file (ignored_files ignored_file_types : List String)
    (patterns : List RenamePattern) (f : SrcFile) : Except String (Option String) :=
  if ignored_file_types.any (fun p => occursIn p (splitext_ext f.name)) then .ok none
  else if ignored_files.any (fun p => occursIn p f.path) then .ok none
  else
    match f.contents with
    | .binary => .error ("file_path: " ++ f.path)
    | .text content => .ok (some (applyCodeRenamesContent patterns f.name content))

/-- The sequential file loop of apply_code_renames: the first decode failure
aborts the whole run; otherwise the list of (path, new content) writes. -/
def apply_code_renames_files (ignored_files ignored_file_types : List String)
    (patterns : List RenamePattern) : List SrcFile → Except String (List (String × String))
  | [] => .ok []
  | f :: fs =>
    match apply_code_renames_file ignored_files ignored_file_types patterns f with
    | .error e => .error e
    | .ok none => apply_code_renames_files ignored_files ignored_file_types patterns fs
    | .ok (some c) =>
      match apply_code_renames_files ignored_files ignored_file_types patterns fs with
      | .error e => .error e
      | .ok rest => .ok ((f.path, c) :: rest)

/-- Does an Except value carry an error. -/
def exceptErrored {e a : Type} : Except e a → Bool
  | .error _ => true
  | .ok _ => false

instance {e a : Type} [DecidableEq e] [DecidableEq a] : DecidableEq (Except e a) := fun x y =>
  match x, y with
  | .error x1, .error y1 =>
    if h : x1 = y1 then .isTrue (by rw [h]) else .isFalse (by simp [h])
  | .ok x1, .ok y1 =>
    if h : x1 = y1 then .isTrue (by rw [h]) else .isFalse (by simp [h])
  | .error _, .ok _ => .isFalse (by simp)
  | .ok _, .error _ => .isFalse (by simp)

/-! ## analyze_folder_commits (track_upstream_commits.py)

The git collaborator is modelled by a function from folder to its commit list
(the output of get_folder_commits). -/

/-- Python dict assignment d[k] = v on an association list: overwrite in
place, else append. -/
def setKey : List (String × List String) → String → List String → List (String × List String)
  | [], k, v => [(k, v)]
  | (k2, v2) :: rest, k, v =>
    if k2 = k then (k2, v) :: rest else (k2, v2) :: setKey rest k v

/-- folders_commits: only folders whose commit list is non-empty, in
first-insertion order. -/
def buildFoldersCommits (folders : List String) (commitsOf : String → List String) :
    List (String × List String) :=
  folders.foldl (fun acc folder =>
    let commits := commitsOf folder
    if commits.isEmpty then acc else setKey acc folder commits) []

/-- duplicate_commits: the commits occurring in the lists of two distinct
entries (each entry contributes its commits that also occur in a later
entry; only set membership of the result is meaningful). -/
def duplicateCommits : List (String × List String) → List String
  | [] => []
  | (_, cs) :: rest =>
    cs.filter (fun c => rest.any (fun e => e.2.contains c)) ++ duplicateCommits rest

/-- analyze_folder_commits: build folders_commits, compute the cross-folder
duplicate set, and remove the duplicates from every per-folder list.  Returns
(per-folder exclusive lists, duplicate set). -/
def analyze_folder_commits (folders : List String) (commitsOf : String → List String) :
    List (String × List String) × List String :=
  let folders_commits := buildFoldersCommits folders commitsOf
  let dups := duplicateCommits folders_commits
  (folders_commits.map (fun e => (e.1, e.2.filter (fun c => !dups.contains c))), dups)

/-! ## Demonstration inputs used by counterexamples and witnesses -/

/-- Rules file of the C1 example: OwnerA for *.rs declared first, OwnerB for
foo/*.rs declared later. -/
def c1Lines : List String := ["*.rs @OwnerA", "foo/*.rs @OwnerB"]

/-- Rules file holding only a wildcard default-owner line. -/
def defaultOnlyLines : List String := ["* @o"]

/-- Sibling folders foo and foobar, where foo is a string prefix of foobar. -/
def siblingForest : List FTree := [FTree.node "foo" [], FTree.node "foobar" []]

/-- Rules file with a single rooted rule for folder a. -/
def rootedALines : List String := ["/a @o"]

/-- Forest with a directly-matched folder a (with a child b) and an unmatched
folder c. -/
def pruneForest : List FTree := [FTree.node "a" [FTree.node "b" []], FTree.node "c" []]

/-! # Theorems -/

/-! ## C1 and C10: the OwnershipIndex lookup -/

/-- The patterns contributed by one line, as seen by processLine. -/
lemma processLine_patterns (pm : Option (String → String)) (st : CodeOwners) (line : String) :
    (processLine pm st line).patterns = declaredRules pm [line] ++ st.patterns := by
  cases h1 : (decide (pyStrip line = "") || py_startswith (pyStrip line) "#") with
  | true => simp [processLine, declaredRules, h1]
  | false =>
    cases h2 : pySplit (pyStrip line) with
    | nil => simp [processLine, declaredRules, h1, h2]
    | cons gp os =>
      by_cases h3 : gp = "*"
      · simp [processLine, declaredRules, h1, h2, h3]
      · simp [processLine, declaredRules, h1, h2, h3]

/-- Declared rules of a line list decompose at the head line. -/
lemma declaredRules_cons (pm : Option (String → String)) (line : String) (rest : List String) :
    declaredRules pm (line :: rest) = declaredRules pm [line] ++ declaredRules pm rest := by
  cases h1 : (decide (pyStrip line = "") || py_startswith (pyStrip line) "#") with
  | true => simp [declaredRules, h1]
  | false =>
    cases h2 : pySplit (pyStrip line) with
    | nil => simp [declaredRules, h1, h2]
    | cons gp os =>
      by_cases h3 : gp = "*"
      · simp [declaredRules, h1, h2, h3]
      · simp [declaredRules, h1, h2, h3]

/-- One line declares at most one rule, so reversal is the identity on it. -/
lemma declaredRules_single_reverse (pm : Option (String → String)) (line : String) :
    (declaredRules pm [line]).reverse = declaredRules pm [line] := by
  cases h1 : (decide (pyStrip line = "") || py_startswith (pyStrip line) "#") with
  | true => simp [declaredRules, h1]
  | false =>
    cases h2 : pySplit (pyStrip line) with
    | nil => simp [declaredRules, h1, h2]
    | cons gp os =>
      by_cases h3 : gp = "*"
      · simp [declaredRules, h1, h2, h3]
      · simp [declaredRules, h1, h2, h3]

/-- Front insertion at load time stores the declared rules in reverse
declaration order. -/
lemma build_patterns_aux (pm : Option (String → String)) (lines : List String)
    (st : CodeOwners) :
    (lines.foldl (processLine pm) st).patterns =
      (declaredRules pm lines).reverse ++ st.patterns := by
  induction lines generalizing st with
  | nil => simp [declaredRules]
  | cons line rest ih =>
    rw [declaredRules_cons, List.reverse_append, declaredRules_single_reverse,
      List.foldl_cons, ih, processLine_patterns]
    simp

/-- First match over the reversed rule list is the last declared match. -/
lemma find?_reverse_lastDeclared (path : String) (l : List PatternWithOwners) :
    l.reverse.find? (fun pw => match_pattern path pw.pattern) = lastDeclaredMatch path l := by
  induction l with
  | nil => simp [lastDeclaredMatch]
  | cons r rest ih =>
    rw [List.reverse_cons, List.find?_append, ih]
    cases hl : lastDeclaredMatch path rest with
    | some r2 =>
      have h2 : lastDeclaredMatch path (r :: rest) = some r2 := by
        simp [lastDeclaredMatch, hl]
      rw [h2]
      simp
    | none =>
      have h2 : lastDeclaredMatch path (r :: rest) =
          if match_pattern path r.pattern then some r else none := by
        simp [lastDeclaredMatch, hl]
      rw [h2]
      by_cases hm : match_pattern path r.pattern = true
      · simp [List.find?, hm]
      · simp [List.find?, hm]

/-- C1 (amended): last-match-wins over the rules that actually match.  If the
most recently declared rule whose pattern matches the mapped path is r, the
lookup returns the owners of r, because rules are inserted at the front of
the list at load time and lookup returns the first list match. -/
theorem c1_last_match_wins (pm pf : Option (String → String)) (lines : List String)
    (path : String) (md : Bool) (r : PatternWithOwners)
    (h : lastDeclaredMatch (mapPath pf path) (declaredRules pm lines) = some r) :
    match_owners_for_path (CodeOwners.build pm lines) pf path md = some r.owners := by
  have hp : (CodeOwners.build pm lines).patterns = (declaredRules pm lines).reverse := by
    have hb := build_patterns_aux pm lines ⟨none, []⟩
    simpa [CodeOwners.build] using hb
  simp only [match_owners_for_path]
  rw [hp, find?_reverse_lastDeclared (mapPath pf path), h]

/-- C1 counterexample: for the rules file declaring *.rs -> OwnerA then
foo/*.rs -> OwnerB, the lookup of foo/bar.rs returns OwnerA, not OwnerB as the
claim states: the unrooted pattern foo/*.rs is prefixed with **/ and fnmatch
then requires at least one leading path segment, so it does not match
foo/bar.rs at all. -/
theorem c1_counterexample :
    match_owners_for_path (CodeOwners.build none c1Lines) none "foo/bar.rs" true =
        some ["@OwnerA"] ∧
      match_owners_for_path (CodeOwners.build none c1Lines) none "foo/bar.rs" true ≠
        some ["@OwnerB"] :=
  ⟨by decide, by decide⟩

/-- Witness for c1_last_match_wins: two rooted rules for the same pattern,
the later declared one wins. -/
theorem c1_last_match_wins_witness :
    match_owners_for_path (CodeOwners.build none ["/a.rs @X", "/a.rs @Y"]) none "a.rs" true =
      some ["@Y"] := by
  have h := c1_last_match_wins none none ["/a.rs @X", "/a.rs @Y"] "a.rs" true
    ⟨"/a.rs", ["@Y"]⟩ (by decide)
  exact h

/-- C2: evaluation of match_pattern at the failing input.  An unrooted pattern
is conceptually prefixed with **/, but under fnmatch this requires at least
one leading path segment, so a plain unrooted pattern does NOT match itself at
depth zero (first conjunct refutes the claim's "including zero"); it does
match with one leading segment, and rooted patterns match exactly at the
root. -/
theorem c2_unrooted_depth_zero_fails :
    match_pattern "a/b/c" "a/b/c" = false ∧
    match_pattern "x/a/b/c" "a/b/c" = true ∧
    match_pattern "a/b/c" "/a/b/c" = true ∧
    match_pattern "x/a/b/c" "/a/b/c" = false :=
  ⟨by decide, by decide, by decide, by decide⟩

/-- C10: a wildcard line declaring zero owners stores some [] as the default
owners, which is falsy, so a path matching no explicit rule looks up to none;
and an empty default-owner list behaves exactly as if no default owners were
declared. -/
theorem c10_empty_default_owners (pm pf : Option (String → String)) (lines : List String)
    (path p2 : String) (md : Bool)
    (hdef : (CodeOwners.build pm lines).default_owners = some [])
    (hnom : ∀ pw ∈ (CodeOwners.build pm lines).patterns,
      match_pattern (mapPath pf path) pw.pattern = false) :
    match_owners_for_path (CodeOwners.build pm lines) pf path true = none ∧
    match_owners_for_path (CodeOwners.build pm lines) pf p2 md =
      match_owners_for_path ⟨none, (CodeOwners.build pm lines).patterns⟩ pf p2 md := by
  constructor
  · simp only [match_owners_for_path]
    have hfind : (CodeOwners.build pm lines).patterns.find?
        (fun pw => match_pattern (mapPath pf path) pw.pattern) = none := by
      rw [List.find?_eq_none]
      intro x hx
      simp [hnom x hx]
    rw [hfind, hdef]
    simp [truthyOwners]
  · simp only [match_owners_for_path]
    cases hf : (CodeOwners.build pm lines).patterns.find?
        (fun pw => match_pattern (mapPath pf p2) pw.pattern) with
    | some pw => simp [hf]
    | none => simp [hdef, truthyOwners]

/-- Witness for c10_empty_default_owners at a concrete rules file with a bare
wildcard line and one non-matching rule. -/
theorem c10_empty_default_owners_witness :
    match_owners_for_path (CodeOwners.build none ["*", "/x @a"]) none "q" true = none ∧
    match_owners_for_path (CodeOwners.build none ["*", "/x @a"]) none "q2" false =
      match_owners_for_path ⟨none, (CodeOwners.build none ["*", "/x @a"]).patterns⟩
        none "q2" false :=
  c10_empty_default_owners none none ["*", "/x @a"] "q" "q2" false (by decide) (by decide)

/-! ## C5: the rename substitutions -/

/-- A literal substitution leaves a subject without occurrences unchanged. -/
lemma subFuel_no_occur (pat repl : List Char) (fuel : Nat) (s : List Char)
    (h : occursInAux pat s = false) : subFuel pat repl fuel s = s := by
  induction fuel generalizing s with
  | zero => cases s <;> simp [subFuel]
  | succ fuel ih =>
    cases s with
    | nil => simp [subFuel]
    | cons c cs =>
      simp only [occursInAux, Bool.or_eq_false_iff] at h
      obtain ⟨hp, ho⟩ := h
      simp [subFuel, hp, ih cs ho]

/-- re.sub with a literal pattern is the identity on subjects in which the
pattern does not occur. -/
lemma re_sub_no_occur (pat repl s : String) (h : occursIn pat s = false) :
    re_sub pat repl s = s := by
  unfold re_sub
  rw [subFuel_no_occur pat.data repl.data s.data.length s.data h]

/-- C5 (amended): the rename fold is the identity on any string in which no
pattern's regex has a match; in particular, when no pattern's regex matches
the output of the first full application, applying the full ordered list a
second time yields the identical result. -/
theorem c5_rename_stable (patterns : List RenamePattern) (path : String)
    (h : ∀ p ∈ patterns, occursIn p.regex (applyRenames patterns path) = false) :
    applyRenames patterns (applyRenames patterns path) = applyRenames patterns path := by
  have key : ∀ (ps : List RenamePattern) (y : String),
      (∀ p ∈ ps, occursIn p.regex y = false) → applyRenames ps y = y := by
    intro ps
    induction ps with
    | nil => intro y _; rfl
    | cons p rest ih =>
      intro y hy
      have hp := hy p (by simp)
      have hrest : ∀ q ∈ rest, occursIn q.regex y = false := fun q hq => hy q (by simp [hq])
      simp only [applyRenames, List.foldl_cons]
      have hstep : (if p.ignore_files.any (fun ig => occursIn ig y) then y
          else re_sub p.regex p.replacement y) = y := by
        split
        · rfl
        · exact re_sub_no_occur _ _ _ hp
      rw [hstep]
      exact ih y hrest
  exact key patterns (applyRenames patterns path) h

/-- C5 counterexample: the single pattern (regex "ab", replacement "a")
satisfies the claim's hypothesis — its replacement does not match its own
regex — yet applying the list twice to "abb" gives "a" while one application
gives "ab": the substitution created a fresh match with the following
context, so the claimed idempotence fails. -/
theorem c5_counterexample :
    occursIn "ab" "a" = false ∧
    applyRenames [⟨"ab", "a", []⟩] "abb" = "ab" ∧
    applyRenames [⟨"ab", "a", []⟩] (applyRenames [⟨"ab", "a", []⟩] "abb") = "a" ∧
    applyRenames [⟨"ab", "a", []⟩] (applyRenames [⟨"ab", "a", []⟩] "abb") ≠
      applyRenames [⟨"ab", "a", []⟩] "abb" :=
  ⟨by decide, by decide, by decide, by decide⟩

/-- Witness for c5_rename_stable: once "ab" has been rewritten to "a", the
pattern no longer matches and a second application changes nothing. -/
theorem c5_rename_stable_witness :
    applyRenames [⟨"ab", "a", []⟩] (applyRenames [⟨"ab", "a", []⟩] "ab") =
      applyRenames [⟨"ab", "a", []⟩] "ab" :=
  c5_rename_stable [⟨"ab", "a", []⟩] "ab" (by decide)

/-! ## C6: patch emission -/

/-- C6: create_patch writes a patch exactly when the unified diff of the two
(readable) sides is non-empty; identical contents produce no patch; the
"a" versus "b" example produces a diff containing the -a and +b lines; a
missing side is labelled /dev/null and the present side carries the shared
relative path. -/
theorem c6_patch_emission (src tgt : FileContent) (ls : List String) (rel : String)
    (hs : src ≠ FileContent.binary) (ht : tgt ≠ FileContent.binary) :
    create_patch (.text ls) (.text ls) rel = none ∧
    (create_patch src tgt rel = none ↔
      unified_diff (contentLines src) (contentLines tgt)
        (contentLabel src rel) (contentLabel tgt rel) = "") ∧
    create_patch (.text ["a\n"]) (.text ["b\n"]) "f.rs" =
      some "--- f.rs\n+++ f.rs\n@@ -1 +1 @@\n-a\n+b\n" ∧
    occursIn "-a\n" "--- f.rs\n+++ f.rs\n@@ -1 +1 @@\n-a\n+b\n" = true ∧
    occursIn "+b\n" "--- f.rs\n+++ f.rs\n@@ -1 +1 @@\n-a\n+b\n" = true ∧
    create_patch .absent (.text ["b\n"]) "r" =
      some "--- /dev/null\n+++ r\n@@ -0,0 +1 @@\n+b\n" ∧
    create_patch (.text ["a\n"]) .absent "r" =
      some "--- r\n+++ /dev/null\n@@ -1 +0,0 @@\n-a\n" := by
  refine ⟨?_, ?_, by decide, by decide, by decide, by decide, by decide⟩
  · simp [create_patch, unified_diff]
  · cases src with
    | binary => exact absurd rfl hs
    | absent =>
      cases tgt with
      | binary => exact absurd rfl ht
      | absent => simp only [create_patch]; split <;> simp_all
      | text l2 => simp only [create_patch]; split <;> simp_all
    | text l1 =>
      cases tgt with
      | binary => exact absurd rfl ht
      | absent => simp only [create_patch]; split <;> simp_all
      | text l2 => simp only [create_patch]; split <;> simp_all

/-- Witness for c6_patch_emission with a one-sided pair. -/
theorem c6_patch_emission_witness :
    create_patch (.text ["x\n"]) (.text ["x\n"]) "r" = none ∧
    (create_patch .absent (.text ["b\n"]) "r" = none ↔
      unified_diff (contentLines .absent) (contentLines (.text ["b\n"]))
        (contentLabel .absent "r") (contentLabel (.text ["b\n"]) "r") = "") ∧
    create_patch (.text ["a\n"]) (.text ["b\n"]) "f.rs" =
      some "--- f.rs\n+++ f.rs\n@@ -1 +1 @@\n-a\n+b\n" ∧
    occursIn "-a\n" "--- f.rs\n+++ f.rs\n@@ -1 +1 @@\n-a\n+b\n" = true ∧
    occursIn "+b\n" "--- f.rs\n+++ f.rs\n@@ -1 +1 @@\n-a\n+b\n" = true ∧
    create_patch .absent (.text ["b\n"]) "r" =
      some "--- /dev/null\n+++ r\n@@ -0,0 +1 @@\n+b\n" ∧
    create_patch (.text ["a\n"]) .absent "r" =
      some "--- r\n+++ /dev/null\n@@ -1 +0,0 @@\n-a\n" :=
  c6_patch_emission .absent (.text ["b\n"]) ["x\n"] "r" (by decide) (by decide)

/-! ## C7: semantic-version gating -/

/-- The max half of the gate returns exactly "resolved version above the
parsed bound". -/
lemma skipMax_eq (v : SemVer) (e : ConfigEntry) (maxv : Option SemVer)
    (hmax : BoundParsed e.max_sem_version maxv) :
    skipMax v e = .ok (aboveMax v maxv) := by
  rcases hmax with ⟨h1, h2⟩ | ⟨s, m, h1, h2, h3⟩
  · subst h2
    simp [skipMax, h1, aboveMax]
  · subst h3
    by_cases hgt : semVerLt m v = true
    · simp [skipMax, h1, h2, hgt, aboveMax]
    · simp [skipMax, h1, h2, hgt, aboveMax]

/-- C7: an entry whose bounds parse is skipped exactly when the resolved
version falls strictly outside the closed interval of its optional bounds;
an absent (or empty) bound imposes no constraint, and a version equal to a
bound is not skipped (strict comparisons on both sides). -/
theorem c7_version_gating (v : SemVer) (e : ConfigEntry) (minv maxv : Option SemVer)
    (hmin : BoundParsed e.min_sem_version minv)
    (hmax : BoundParsed e.max_sem_version maxv) :
    skip_entry_by_version v (some e) = .ok (belowMin v minv || aboveMax v maxv) := by
  rcases hmin with ⟨h1, h2⟩ | ⟨s, m, h1, h2, h3⟩
  · subst h2
    have hm := skipMax_eq v e maxv hmax
    simp [skip_entry_by_version, h1, belowMin, hm]
  · subst h3
    by_cases hlt : semVerLt v m = true
    · simp [skip_entry_by_version, h1, h2, hlt, belowMin]
    · have hm := skipMax_eq v e maxv hmax
      simp [skip_entry_by_version, h1, h2, hlt, belowMin, hm]

/-- Witness for c7_version_gating: the max bound "1.30.0" skips 1.31.0,
applies 1.29.9, and applies the exactly-equal 1.30.0. -/
theorem c7_version_gating_witness :
    skip_entry_by_version ⟨1, 31, 0⟩ (some ⟨none, some "1.30.0"⟩) = .ok true ∧
    skip_entry_by_version ⟨1, 29, 9⟩ (some ⟨none, some "1.30.0"⟩) = .ok false ∧
    skip_entry_by_version ⟨1, 30, 0⟩ (some ⟨none, some "1.30.0"⟩) = .ok false := by
  have hn : BoundParsed (none : Option String) none := Or.inl ⟨rfl, rfl⟩
  have hm : BoundParsed (some "1.30.0" : Option String) (some ⟨1, 30, 0⟩) :=
    Or.inr ⟨"1.30.0", ⟨1, 30, 0⟩, by decide, by decide, rfl⟩
  refine ⟨?_, ?_, ?_⟩
  · exact (c7_version_gating ⟨1, 31, 0⟩ ⟨none, some "1.30.0"⟩ none (some ⟨1, 30, 0⟩) hn hm).trans
      (by decide)
  · exact (c7_version_gating ⟨1, 29, 9⟩ ⟨none, some "1.30.0"⟩ none (some ⟨1, 30, 0⟩) hn hm).trans
      (by decide)
  · exact (c7_version_gating ⟨1, 30, 0⟩ ⟨none, some "1.30.0"⟩ none (some ⟨1, 30, 0⟩) hn hm).trans
      (by decide)

/-! ## C8: decode-failure asymmetry -/

/-- A decode failure anywhere in the file list aborts the whole
apply_code_renames run. -/
lemma apply_files_abort (ifs ift : List String) (patterns : List RenamePattern)
    (pre post : List SrcFile) (f : SrcFile) (e : String)
    (herr : apply_code_renames_file ifs ift patterns f = .error e) :
    exceptErrored (apply_code_renames_files ifs ift patterns (pre ++ f :: post)) = true := by
  induction pre with
  | nil => simp [apply_code_renames_files, herr, exceptErrored]
  | cons g rest ih =>
    cases hg : apply_code_renames_file ifs ift patterns g with
    | error e2 => simp [apply_code_renames_files, hg, exceptErrored]
    | ok o =>
      cases o with
      | none => simpa [apply_code_renames_files, hg] using ih
      | some c =>
        cases hr : apply_code_renames_files ifs ift patterns (rest ++ f :: post) with
        | error e3 => simp [apply_code_renames_files, hg, hr, exceptErrored]
        | ok r2 =>
          rw [hr] at ih
          simp [exceptErrored] at ih

/-- C8: a file whose content cannot be decoded is a fatal error for the
content rename — the per-file step raises UnicodeError and the surrounding
run aborts — while create_patch with an undecodable side merely returns
without writing a patch (it is a total function and cannot raise). -/
theorem c8_decode_failure_asymmetry (ifs ift : List String) (patterns : List RenamePattern)
    (f : SrcFile) (pre post : List SrcFile) (tgt src2 : FileContent) (rel : String)
    (hbin : f.contents = FileData.binary)
    (h1 : ift.any (fun p => occursIn p (splitext_ext f.name)) = false)
    (h2 : ifs.any (fun p => occursIn p f.path) = false) :
    apply_code_renames_file ifs ift patterns f = .error ("file_path: " ++ f.path) ∧
    exceptErrored (apply_code_renames_files ifs ift patterns (pre ++ f :: post)) = true ∧
    create_patch .binary tgt rel = none ∧
    create_patch src2 .binary rel = none := by
  have hfile : apply_code_renames_file ifs ift patterns f =
      .error ("file_path: " ++ f.path) := by
    simp [apply_code_renames_file, h1, h2, hbin]
  refine ⟨hfile, apply_files_abort ifs ift patterns pre post f _ hfile, rfl, ?_⟩
  cases src2 <;> rfl

/-- Witness for c8_decode_failure_asymmetry on a concrete two-file run. -/
theorem c8_decode_failure_asymmetry_witness :
    apply_code_renames_file [] [] [] ⟨"./x/a.rs", "a.rs", .binary⟩ =
        .error ("file_path: " ++ "./x/a.rs") ∧
    exceptErrored (apply_code_renames_files [] [] []
      ([⟨"./ok.rs", "ok.rs", .text "fn main"⟩] ++ ⟨"./x/a.rs", "a.rs", .binary⟩ :: [])) = true ∧
    create_patch .binary (.text ["b\n"]) "r" = none ∧
    create_patch .absent .binary "r" = none :=
  c8_decode_failure_asymmetry [] [] [] ⟨"./x/a.rs", "a.rs", .binary⟩
    [⟨"./ok.rs", "ok.rs", .text "fn main"⟩] [] (.text ["b\n"]) .absent "r" rfl rfl rfl

/-! ## C9: cross-folder commit separation -/

/-- A commit is in the duplicate set exactly when it occurs in the lists of at
least two entries of folders_commits. -/
lemma duplicateCommits_mem (fcs : List (String × List String)) (c : String) :
    c ∈ duplicateCommits fcs ↔ 2 ≤ fcs.countP (fun e => e.2.contains c) := by
  induction fcs with
  | nil => simp [duplicateCommits]
  | cons e rest ih =>
    obtain ⟨f, cs⟩ := e
    simp only [duplicateCommits, List.mem_append, List.mem_filter, List.any_eq_true,
      List.countP_cons, ih]
    constructor
    · rintro (⟨hc, e2, he2, hc2⟩ | h2)
      · have h1 : 0 < rest.countP (fun e => e.2.contains c) :=
          List.countP_pos_iff.mpr ⟨e2, he2, hc2⟩
        have hpe : cs.contains c = true := List.elem_iff.mpr hc
        rw [if_pos hpe]
        omega
      · have hnn : (0:Nat) ≤ if cs.contains c = true then 1 else 0 := Nat.zero_le _
        omega
    · intro h2
      by_cases hpe : cs.contains c = true
      · rcases Nat.lt_or_ge 0 (rest.countP (fun e => e.2.contains c)) with hpos | hzero
        · obtain ⟨e2, he2, hc2⟩ := List.countP_pos_iff.mp hpos
          exact Or.inl ⟨List.elem_iff.mp hpe, e2, he2, hc2⟩
        · rw [if_pos hpe] at h2
          omega
      · rw [if_neg hpe] at h2
        exact Or.inr (by omega)

/-- C9: a commit occurring in the lists of at least two folders is placed in
the cross-folder duplicate set and removed from every per-folder list; a
commit occurring in exactly one folder's list stays in that folder's
exclusive list and is not a duplicate. -/
theorem c9_cross_folder_separation (folders : List String)
    (commitsOf : String → List String) (c : String) :
    (2 ≤ (buildFoldersCommits folders commitsOf).countP (fun e => e.2.contains c) →
      c ∈ (analyze_folder_commits folders commitsOf).2 ∧
      ∀ e ∈ (analyze_folder_commits folders commitsOf).1, c ∉ e.2) ∧
    ((buildFoldersCommits folders commitsOf).countP (fun e => e.2.contains c) = 1 →
      c ∉ (analyze_folder_commits folders commitsOf).2 ∧
      ∀ e ∈ buildFoldersCommits folders commitsOf, c ∈ e.2 →
        (e.1, e.2.filter
            (fun x => !(analyze_folder_commits folders commitsOf).2.contains x)) ∈
          (analyze_folder_commits folders commitsOf).1 ∧
        c ∈ e.2.filter
          (fun x => !(analyze_folder_commits folders commitsOf).2.contains x)) := by
  simp only [analyze_folder_commits]
  constructor
  · intro h2
    have hdup : c ∈ duplicateCommits (buildFoldersCommits folders commitsOf) :=
      (duplicateCommits_mem _ c).mpr h2
    refine ⟨hdup, ?_⟩
    intro e he
    obtain ⟨e0, he0, hmap⟩ := List.mem_map.mp he
    intro hcmem
    rw [← hmap] at hcmem
    simp only [List.mem_filter] at hcmem
    obtain ⟨_, hnc⟩ := hcmem
    simp [List.elem_eq_mem, hdup] at hnc
  · intro h1
    have hnod : c ∉ duplicateCommits (buildFoldersCommits folders commitsOf) := by
      rw [duplicateCommits_mem]
      omega
    refine ⟨hnod, ?_⟩
    intro e he hce
    constructor
    · exact List.mem_map_of_mem _ he
    · rw [List.mem_filter]
      refine ⟨hce, ?_⟩
      simp [List.elem_eq_mem, hnod]

/-! ## C3 and C4: the two-pass folder attribution

The walk lemmas below establish, for the mapping-free configuration used by
the repository, that every path recorded by pass 1 as a direct match has
keep-classified (visited, unmatched, non-ignored) strict ancestors, and that
pass 2 preserves this together with the pairwise non-nesting of the result
keys, because its string-prefix guard is at least as strong as the
segment-ancestor relation. -/

/-- Strings with equal character lists are equal. -/
lemma string_data_eq {a b : String} (h : a.data = b.data) : a = b := by
  cases a
  cases b
  exact congrArg String.mk h

/-- Character list of a slash-joined concatenation. -/
lemma append_slash_data (a b : String) : (a ++ "/" ++ b).data = a.data ++ '/' :: b.data := by
  have h1 : ("/" : String).data = ['/'] := rfl
  rw [String.data_append, String.data_append, h1]
  simp

/-- A strict segment-ancestor is a strict string prefix in Python's
startswith sense. -/
lemma segAncestor_startswith {q p : String} (h : SegAncestor q p) :
    py_startswith p q = true ∧ q ≠ p := by
  obtain ⟨t, ht⟩ := h
  constructor
  · unfold py_startswith
    rw [List.isPrefixOf_iff_prefix, ht, append_slash_data]
    exact ⟨'/' :: t.data, rfl⟩
  · intro heq
    subst heq
    have hd := congrArg String.data ht
    rw [append_slash_data] at hd
    have hlen := congrArg List.length hd
    rw [List.length_append] at hlen
    simp at hlen

/-- No string is its own strict segment-ancestor. -/
lemma segAncestor_irrefl (p : String) : ¬ SegAncestor p p :=
  fun h => (segAncestor_startswith h).2 rfl

/-- Splitting a joined child path at a slash: for a slash-free name, the split
point is either the parent itself or a split point of the parent. -/
lemma joinRel_split (r name q t : String) (hn : '/' ∉ name.data)
    (h : joinRel r name = q ++ "/" ++ t) :
    r ≠ "." ∧ (q = r ∨ ∃ u : String, r = q ++ "/" ++ u) := by
  unfold joinRel at h
  by_cases hr : r = "."
  · rw [if_pos hr] at h
    exact absurd (by rw [h, append_slash_data]; simp) hn
  · rw [if_neg hr] at h
    refine ⟨hr, ?_⟩
    have hd : r.data ++ '/' :: name.data = q.data ++ '/' :: t.data := by
      rw [← append_slash_data, ← append_slash_data, h]
    rcases List.append_eq_append_iff.mp hd with ⟨a2, hc, hb⟩ | ⟨c2, ha, hd2⟩
    · cases a2 with
      | nil =>
        left
        exact string_data_eq (by simpa using hc)
      | cons x a3 =>
        exfalso
        apply hn
        rw [List.cons_append] at hb
        injection hb with hx hrest
        rw [hrest]
        simp
    · cases c2 with
      | nil =>
        left
        exact string_data_eq (by simpa using ha.symm)
      | cons y c3 =>
        rw [List.cons_append] at hd2
        injection hd2 with hy hrest
        right
        refine ⟨String.mk c3, string_data_eq ?_⟩
        rw [ha, append_slash_data, ← hy]

/-- A child path joined from a keep-classified (or root) parent with a
slash-free name has keep-classified strict ancestors. -/
lemma joinRel_ancOK (co : CodeOwners) (relRoot name : String) (hn : '/' ∉ name.data)
    (hp : relRoot = "." ∨ KeepOK co relRoot) : AncOK co (joinRel relRoot name) := by
  intro q t hsplit
  obtain ⟨hne, hcase⟩ := joinRel_split relRoot name q t hn hsplit
  rcases hp with hdot | ⟨hk, ha⟩
  · exact absurd hdot hne
  · rcases hcase with hq | ⟨u, hu⟩
    · rw [hq]
      exact hk
    · exact ha q u hu

/-- Membership facts for the dict-key insertion. -/
lemma mem_insertAll_self (all : List String) (p : String) : p ∈ insertAll all p := by
  unfold insertAll
  split
  · assumption
  · simp

/-- Insertion preserves existing members. -/
lemma mem_insertAll_of_mem (all : List String) (p x : String) (h : x ∈ all) :
    x ∈ insertAll all p := by
  unfold insertAll
  split
  · exact h
  · simp [h]

/-- Members after insertion were members before or are the inserted key. -/
lemma mem_insertAll (all : List String) (p x : String) (h : x ∈ insertAll all p) :
    x ∈ all ∨ x = p := by
  unfold insertAll at h
  split at h
  · exact Or.inl h
  · simpa using h

/-- Keys after a dict extension were keys before or are the extended key. -/
lemma mem_extendKey_fst (l : List (String × List String)) (k : String) (os : List String)
    (x : String) (h : x ∈ (extendKey l k os).map Prod.fst) :
    x ∈ l.map Prod.fst ∨ x = k := by
  induction l with
  | nil =>
    right
    simpa [extendKey] using h
  | cons e rest ih =>
    obtain ⟨k2, v⟩ := e
    unfold extendKey at h
    by_cases hk : k2 = k
    · rw [if_pos hk] at h
      rcases List.mem_map.mp h with ⟨e2, he2, hfst⟩
      rcases List.mem_cons.mp he2 with heq | hrest
      · right
        rw [← hfst, heq, hk]
      · left
        rw [← hfst]
        exact List.mem_cons_of_mem _ (List.mem_map_of_mem Prod.fst hrest)
    · rw [if_neg hk] at h
      rcases List.mem_map.mp h with ⟨e2, he2, hfst⟩
      rcases List.mem_cons.mp he2 with heq | hrest
      · left
        rw [← hfst, heq]
        simp
      · rcases ih (by rw [← hfst]; exact List.mem_map_of_mem Prod.fst hrest) with hl | hr
        · left
          simpa using Or.inr (by simpa using hl)
        · right
          exact hr

/-- pass1Child preserves the pass-1 invariant. -/
lemma pass1Child_good (co : CodeOwners) (owners : List String) (relRoot name : String)
    (st : Pass1State) (hn : '/' ∉ name.data)
    (hp : relRoot = "." ∨ KeepOK co relRoot) (hg : GoodSt co st) :
    GoodSt co (pass1Child co none owners relRoot st name) := by
  have hanc : AncOK co (joinRel relRoot name) := joinRel_ancOK co relRoot name hn hp
  cases hcl : classifyChild co none (joinRel relRoot name) with
  | ignored =>
    unfold pass1Child
    simp only [mapPath, hcl]
    exact hg
  | matched mos =>
    unfold pass1Child
    simp only [mapPath, hcl]
    split
    · refine ⟨?_, ?_, ?_⟩
      · intro p hpmem
        rcases mem_insertAll _ _ _ hpmem with hold | heq
        · exact hg.allOk p hold
        · rw [heq]
          exact ⟨⟨mos, hcl⟩, hanc⟩
      · intro k hkmem
        rcases mem_extendKey_fst _ _ _ _ hkmem with hold | heq
        · exact mem_insertAll_of_mem _ _ _ (hg.filtOk k hold)
        · rw [heq]
          exact mem_insertAll_self _ _
      · exact hg.unmOk
    · refine ⟨?_, ?_, ?_⟩
      · intro p hpmem
        rcases mem_insertAll _ _ _ hpmem with hold | heq
        · exact hg.allOk p hold
        · rw [heq]
          exact ⟨⟨mos, hcl⟩, hanc⟩
      · intro k hkmem
        exact mem_insertAll_of_mem _ _ _ (hg.filtOk k hkmem)
      · exact hg.unmOk
  | keep =>
    unfold pass1Child
    simp only [mapPath, hcl]
    refine ⟨hg.allOk, hg.filtOk, ?_⟩
    intro e he
    rcases List.mem_append.mp he with hold | hnew
    · exact hg.unmOk e hold
    · rw [List.mem_singleton.mp hnew]
      exact ⟨hcl, hanc⟩

/-- The classification fold of pass 1 preserves the invariant. -/
lemma pass1Fold_good (co : CodeOwners) (owners : List String) (relRoot : String) :
    ∀ (children : List FTree) (st : Pass1State),
      (∀ c ∈ children, '/' ∉ c.name.data) →
      (relRoot = "." ∨ KeepOK co relRoot) → GoodSt co st →
      GoodSt co (children.foldl (fun s c => pass1Child co none owners relRoot s c.name) st) := by
  intro children
  induction children with
  | nil =>
    intro st _ _ hg
    exact hg
  | cons c cs ih =>
    intro st hn hp hg
    rw [List.foldl_cons]
    exact ih _ (fun x hx => hn x (List.mem_cons_of_mem c hx)) hp
      (pass1Child_good co owners relRoot c.name st (hn c (List.mem_cons_self c cs)) hp hg)

/-- The descent fold of pass 1 preserves the invariant, assuming it is
preserved one fuel level down. -/
lemma walkDescend_good (co : CodeOwners) (owners : List String) (fuel : Nat)
    (ihfuel : ∀ (relRoot : String) (children : List FTree) (st : Pass1State),
      ForestOk children → (relRoot = "." ∨ KeepOK co relRoot) → GoodSt co st →
      GoodSt co (walkNodeF co none owners fuel relRoot children st))
    (relRoot : String) (hp : relRoot = "." ∨ KeepOK co relRoot) :
    ∀ (children : List FTree) (st : Pass1State),
      (∀ c ∈ children, '/' ∉ c.name.data) →
      (∀ c ∈ children, ForestOk c.children) →
      GoodSt co st →
      GoodSt co (children.foldl (fun s c =>
        if classifyChild co none (mapPath none (joinRel relRoot c.name)) = CClass.keep then
          walkNodeF co none owners fuel (joinRel relRoot c.name) c.children s
        else s) st) := by
  intro children
  induction children with
  | nil =>
    intro st _ _ hg
    exact hg
  | cons c cs ih =>
    intro st hn hc hg
    rw [List.foldl_cons]
    apply ih _ (fun x hx => hn x (List.mem_cons_of_mem c hx))
      (fun x hx => hc x (List.mem_cons_of_mem c hx))
    by_cases hcl : classifyChild co none (mapPath none (joinRel relRoot c.name)) = CClass.keep
    · rw [if_pos hcl]
      apply ihfuel _ _ _ (hc c (List.mem_cons_self c cs)) _ hg
      right
      exact ⟨hcl, joinRel_ancOK co relRoot c.name (hn c (List.mem_cons_self c cs)) hp⟩
    · rw [if_neg hcl]
      exact hg

/-- The pass-1 walk preserves the invariant, for any fuel. -/
lemma walkNodeF_good (co : CodeOwners) (owners : List String) :
    ∀ (fuel : Nat) (relRoot : String) (children : List FTree) (st : Pass1State),
      ForestOk children → (relRoot = "." ∨ KeepOK co relRoot) → GoodSt co st →
      GoodSt co (walkNodeF co none owners fuel relRoot children st) := by
  intro fuel
  induction fuel with
  | zero =>
    intro relRoot children st _ _ hg
    exact hg
  | succ fuel ih =>
    intro relRoot children st hok hp hg
    simp only [walkNodeF]
    split
    · exact hg
    · have hnames : ∀ c ∈ children, '/' ∉ c.name.data := by
        cases hok with
        | mk ts hn2 hc2 => exact hn2
      have hkids : ∀ c ∈ children, ForestOk c.children := by
        cases hok with
        | mk ts hn2 hc2 => exact hc2
      exact walkDescend_good co owners fuel ih relRoot hp children _ hnames hkids
        (pass1Fold_good co owners relRoot children st hnames hp hg)

/-- pass2Step preserves the pass-2 invariant when the processed directory was
deferred by pass 1. -/
lemma pass2Step_good (co : CodeOwners) (owners : List String) (st : Pass2State)
    (entry : String × String) (hk : KeepOK co (joinRel entry.1 entry.2))
    (hg : GoodSt2 co st) : GoodSt2 co (pass2Step co none owners st entry) := by
  obtain ⟨er, en⟩ := entry
  simp only [joinRel] at hk
  unfold pass2Step
  simp only [mapPath]
  split
  · exact hg
  · split
    · exact hg
    · rename_i hguard
      rw [Bool.or_eq_true, not_or] at hguard
      obtain ⟨hsub, hpar⟩ := hguard
      rw [Bool.not_eq_true, List.any_eq_false] at hsub hpar
      split
      · split
        · refine ⟨?_, ?_, ?_⟩
          · intro k hkmem
            rcases mem_extendKey_fst _ _ _ _ hkmem with hold | heq
            · exact mem_insertAll_of_mem _ _ _ (hg.filtSub k hold)
            · rw [heq]
              exact mem_insertAll_self _ _
          · intro k1 h1 k2 h2 hseg
            rcases mem_extendKey_fst _ _ _ _ h1 with h1o | h1n
            · rcases mem_extendKey_fst _ _ _ _ h2 with h2o | h2n
              · exact hg.noSeg k1 h1o k2 h2o hseg
              · -- k1 is an old key, k2 is the added path: hasPar would have fired
                obtain ⟨hsw, hne⟩ := segAncestor_startswith hseg
                rw [h2n] at hsw hne
                exact hpar k1 (hg.filtSub k1 h1o)
                  (by rw [hsw, Bool.true_and]; exact bne_iff_ne.mpr hne)
            · rcases mem_extendKey_fst _ _ _ _ h2 with h2o | h2n
              · -- k1 is the added path, k2 an old key: hasSub would have fired
                obtain ⟨hsw, hne⟩ := segAncestor_startswith hseg
                rw [h1n] at hsw hne
                exact hsub k2 (hg.filtSub k2 h2o)
                  (by rw [hsw, Bool.true_and]; exact bne_iff_ne.mpr (Ne.symm hne))
              · rw [h1n, h2n] at hseg
                exact segAncestor_irrefl _ hseg
          · intro k hkmem
            rcases mem_extendKey_fst _ _ _ _ hkmem with hold | heq
            · exact hg.ancOk k hold
            · rw [heq]
              exact hk.2
        · exact hg
      · exact hg

/-- The pass-2 fold preserves the invariant over the deferred directories. -/
lemma pass2Fold_good (co : CodeOwners) (owners : List String) :
    ∀ (entries : List (String × String)) (st : Pass2State),
      (∀ e ∈ entries, KeepOK co (joinRel e.1 e.2)) → GoodSt2 co st →
      GoodSt2 co (entries.foldl (pass2Step co none owners) st) := by
  intro entries
  induction entries with
  | nil =>
    intro st _ hg
    exact hg
  | cons e es ih =>
    intro st hk hg
    rw [List.foldl_cons]
    exact ih _ (fun x hx => hk x (List.mem_cons_of_mem e hx))
      (pass2Step_good co owners st e (hk e (List.mem_cons_self e es)) hg)

/-- The final state of match_paths_for_owners satisfies the pass-2 invariant
whenever the pass-1 state it starts from satisfies the pass-1 invariant. -/
lemma pass2_entry_good (co : CodeOwners) (owners : List String) (st1 : Pass1State)
    (hg : GoodSt co st1) :
    GoodSt2 co (st1.unmatched.foldl (pass2Step co none owners) ⟨st1.all, st1.filtered⟩) := by
  apply pass2Fold_good co owners st1.unmatched _ hg.unmOk
  refine ⟨hg.filtOk, ?_, ?_⟩
  · intro k1 h1 k2 h2 hseg
    obtain ⟨⟨os, hcl⟩, _⟩ := hg.allOk k1 (hg.filtOk k1 h1)
    obtain ⟨_, hanc⟩ := hg.allOk k2 (hg.filtOk k2 h2)
    obtain ⟨t, ht⟩ := hseg
    have hkk := hanc k1 t ht
    rw [hcl] at hkk
    exact CClass.noConfusion hkk
  · intro k hkm
    exact (hg.allOk k (hg.filtOk k hkm)).2

/-- C3 (amended, invariant part): for a well-formed tree, no key of the
returned attribution is a strict segment-ancestor of another key — pass-1
direct matches prune descent, and pass-2 default attribution is blocked by
the string-prefix guard, which subsumes the segment relation. -/
theorem c3_attribution_no_overlap (co : CodeOwners) (owners : List String)
    (rootChildren : List FTree) (hok : ForestOk rootChildren) (k1 k2 : String)
    (h1 : k1 ∈ (match_paths_for_owners co none rootChildren owners).map Prod.fst)
    (h2 : k2 ∈ (match_paths_for_owners co none rootChildren owners).map Prod.fst) :
    ¬ SegAncestor k1 k2 := by
  have hg1 : GoodSt co (walkNodeF co none owners (sizeL rootChildren + 1) "."
      rootChildren ⟨[], [], []⟩) :=
    walkNodeF_good co owners _ "." rootChildren _ hok (Or.inl rfl)
      ⟨by simp, by simp, by simp⟩
  have hfin := pass2_entry_good co owners _ hg1
  exact fun hseg => hfin.noSeg k1 h1 k2 h2 hseg

/-- C3 counterexample to the sibling part of the claim: with only a default
owner declared, the sibling folders foo and foobar (foo a string prefix of
foobar) DO block each other in pass 2 — only foo receives default
attribution, because the guard uses plain string startswith rather than a
segment-boundary comparison. -/
theorem c3_sibling_blocking_counterexample :
    match_paths_for_owners (CodeOwners.build none defaultOnlyLines) none siblingForest
      ["@o"] = [("foo", ["@o"])] ∧
    "foobar" ∉ (match_paths_for_owners (CodeOwners.build none defaultOnlyLines) none
      siblingForest ["@o"]).map Prod.fst :=
  ⟨by decide, by decide⟩

/-- The empty forest is well-formed. -/
lemma forestOk_nil : ForestOk [] := ForestOk.mk [] (by simp) (by simp)

/-- The sibling demonstration forest is well-formed. -/
lemma forestOk_siblings : ForestOk siblingForest := by
  refine ForestOk.mk _ ?_ ?_
  · intro t ht
    fin_cases ht <;> decide
  · intro t ht
    fin_cases ht <;> exact forestOk_nil

/-- The pruning demonstration forest is well-formed. -/
lemma forestOk_prune : ForestOk pruneForest := by
  refine ForestOk.mk _ ?_ ?_
  · intro t ht
    fin_cases ht <;> decide
  · intro t ht
    fin_cases ht
    · refine ForestOk.mk _ ?_ ?_
      · intro t2 ht2
        fin_cases ht2
        decide
      · intro t2 ht2
        fin_cases ht2
        exact forestOk_nil
    · exact forestOk_nil

/-- Witness for c3_attribution_no_overlap on the sibling forest, whose
attribution result has the single key foo. -/
theorem c3_attribution_no_overlap_witness : ¬ SegAncestor "foo" "foo" :=
  c3_attribution_no_overlap (CodeOwners.build none defaultOnlyLines) ["@o"] siblingForest
    forestOk_siblings "foo" "foo" (by decide) (by decide)

/-- C4: if a path is a truthy direct rule match (here additionally one whose
owners intersect the requested owners), no strict segment-descendant of it is
a key of the attribution result: every result key has keep-classified strict
ancestors, and a directly matched path never classifies keep. -/
theorem c4_prune_on_match (co : CodeOwners) (owners : List String)
    (rootChildren : List FTree) (hok : ForestOk rootChildren) (p : String)
    (os : List String)
    (hmatch : truthyOwners (match_owners_for_path co none p false) = some os)
    (hreq : os.any (fun o => owners.contains o) = true) (k : String)
    (hk : k ∈ (match_paths_for_owners co none rootChildren owners).map Prod.fst) :
    ¬ SegAncestor p k := by
  have hg1 : GoodSt co (walkNodeF co none owners (sizeL rootChildren + 1) "."
      rootChildren ⟨[], [], []⟩) :=
    walkNodeF_good co owners _ "." rootChildren _ hok (Or.inl rfl)
      ⟨by simp, by simp, by simp⟩
  have hfin := pass2_entry_good co owners _ hg1
  intro hseg
  obtain ⟨t, ht⟩ := hseg
  have hanc := hfin.ancOk k hk p t ht
  unfold classifyChild at hanc
  split at hanc
  · exact CClass.noConfusion hanc
  · rw [hmatch] at hanc
    exact CClass.noConfusion hanc

/-- Witness for c4_prune_on_match: folder a is a direct match for the
requested owner; the result keys are exactly a, and the theorem applies. -/
theorem c4_prune_on_match_witness : ¬ SegAncestor "a" "a" :=
  c4_prune_on_match (CodeOwners.build none rootedALines) ["@o"] pruneForest
    forestOk_prune "a" ["@o"] (by decide) (by decide) "a" (by decide)

/-- Witness for c9_cross_folder_separation: folders A and B share c2, while
c1 is exclusive to A. -/
theorem c9_cross_folder_separation_witness :
    "c2" ∈ (analyze_folder_commits ["A", "B"]
      (fun f => if f = "A" then ["c1", "c2"] else if f = "B" then ["c2", "c3"] else [])).2 ∧
    "c1" ∉ (analyze_folder_commits ["A", "B"]
      (fun f => if f = "A" then ["c1", "c2"] else if f = "B" then ["c2", "c3"] else [])).2 :=
  ⟨((c9_cross_folder_separation ["A", "B"]
      (fun f => if f = "A" then ["c1", "c2"] else if f = "B" then ["c2", "c3"] else [])
      "c2").1 (by decide)).1,
   ((c9_cross_folder_separation ["A", "B"]
      (fun f => if f = "A" then ["c1", "c2"] else if f = "B" then ["c2", "c3"] else [])
      "c1").2 (by decide)).1⟩

end Spec2Proof

